import Mathlib

/-!
Verification development for the `regexp2` package facade (`regexp.go`).

The repository source under scrutiny is the public surface file `regexp.go`:
`Compile`/`MustCompile` wrappers, the find/replace/group-name surface, the
`QuoteMeta`/`special` helpers, and the input adaptation (`getRunes`,
`getRunesAndStart`).  The backtracking engine itself (the `syntax` package,
`runner.go`, `match.go`, `replace.go`) is not part of the given source; where a
property depends on it, the engine is modelled from the specification
(see the doc comments marked "Modelled from the spec").

Strings are embedded as lists of Unicode scalars (`List Char`); Go byte
positions are recovered through the UTF-8 size of each scalar.  Byte strings
(for the byte-level `QuoteMeta` helper and the `replaceAll` buffer) are lists
of naturals.
-/

namespace Regexp2

/-- UTF-8 byte size of one Unicode scalar, as Go's `utf8.RuneLen` computes it
for valid scalars. -/
def charUtf8Size (c : Char) : Nat :=
  if c.toNat < 0x80 then 1
  else if c.toNat < 0x800 then 2
  else if c.toNat < 0x10000 then 3
  else 4

/-- Go `len(s)` for a string: the number of UTF-8 bytes of its scalars. -/
def strLen (s : List Char) : Nat :=
  (s.map charUtf8Size).sum

/-- UTF-8 encoding of one scalar as a byte list. -/
def charUtf8Bytes (c : Char) : List Nat :=
  let n := c.toNat
  if n < 0x80 then [n]
  else if n < 0x800 then [0xC0 + n / 0x40, 0x80 + n % 0x40]
  else if n < 0x10000 then [0xE0 + n / 0x1000, 0x80 + (n / 0x40) % 0x40, 0x80 + n % 0x40]
  else [0xF0 + n / 0x40000, 0x80 + (n / 0x1000) % 0x40, 0x80 + (n / 0x40) % 0x40, 0x80 + n % 0x40]

/-- UTF-8 encoding of a string as a byte list. -/
def utf8Bytes (s : List Char) : List Nat :=
  s.flatMap charUtf8Bytes

/-- Width reported by Go's `utf8.DecodeRuneInString` on a byte tail: `0` on an
empty string, else the width determined by the leading byte (invalid leading
bytes decode as width 1). -/
def decodeWidth (bs : List Nat) : Nat :=
  match bs with
  | [] => 0
  | b :: _ =>
    if b < 0x80 then 1
    else if b < 0xC0 then 1
    else if b < 0xE0 then 2
    else if b < 0xF0 then 3
    else 4

/-- Go slice `l[a:b]`. -/
def sliceN (l : List Nat) (a b : Nat) : List Nat :=
  (l.take b).drop a

/-- Go slice `l[a:b]` on scalar lists. -/
def sliceC (l : List Char) (a b : Nat) : List Char :=
  (l.take b).drop a

/-- Modelled from the spec: the compiled program (`syntax.Code`, not under
`src/`).  The instruction set of spec 4.1 is represented as a syntax tree of
the constructs the claims exercise: literal scalars (`One`), character-class
ranges (`Set`), concatenation, alternation (left branch first), greedy
star loops, capture groups (`Capturemark`) and the `Beginning` anchor. -/
inductive RE where
  | eps : RE
  | bol : RE
  | lit : Char → RE
  | cls : Char → Char → RE
  | seq : RE → RE → RE
  | alt : RE → RE → RE
  | star : RE → RE
  | group : Nat → RE → RE
deriving DecidableEq

/-- Node count of a program, used to size the interpreter fuel. -/
def RE.size : RE → Nat
  | .eps => 1
  | .bol => 1
  | .lit _ => 1
  | .cls _ _ => 1
  | .seq a b => a.size + b.size + 1
  | .alt a b => a.size + b.size + 1
  | .star a => a.size + 1
  | .group _ a => a.size + 1

/-- Capture events: (slot, open position, close position). -/
abbrev Caps := List (Nat × Nat × Nat)

/-- Modelled from the spec: the backtracking VM (`runner.go`, not under
`src/`).  `mt dir fuel r s pos cp` returns the continuation positions (paired
with their capture state) a match of `r` starting at cursor `pos` can reach,
in Perl backtracking priority order: alternation tries the left branch first,
greedy loops consume the maximum first and back off one unit at a time, and a
failed branch restores the capture state of the alternative (spec 4.2).
`dir = true` is right-to-left mode: cursor motion is inverted.  The fuel
argument bounds the interpreter loop; it is chosen large enough for every
terminating search. -/
def mt (dir : Bool) : Nat → RE → List Char → Nat → Caps → List (Nat × Caps)
  | 0, _, _, _, _ => []
  | fuel + 1, r, s, pos, cp =>
    match r with
    | .eps => [(pos, cp)]
    | .bol => if pos = 0 then [(pos, cp)] else []
    | .lit c =>
      if dir then
        if 0 < pos ∧ pos ≤ s.length ∧ s.getD (pos - 1) 'a' = c then [(pos - 1, cp)] else []
      else
        if pos < s.length ∧ s.getD pos 'a' = c then [(pos + 1, cp)] else []
    | .cls lo hi =>
      if dir then
        if 0 < pos ∧ pos ≤ s.length ∧ lo ≤ s.getD (pos - 1) 'a' ∧ s.getD (pos - 1) 'a' ≤ hi then
          [(pos - 1, cp)]
        else []
      else
        if pos < s.length ∧ lo ≤ s.getD pos 'a' ∧ s.getD pos 'a' ≤ hi then
          [(pos + 1, cp)]
        else []
    | .seq r1 r2 =>
      (mt dir fuel r1 s pos cp).flatMap (fun pc => mt dir fuel r2 s pc.1 pc.2)
    | .alt r1 r2 =>
      mt dir fuel r1 s pos cp ++ mt dir fuel r2 s pos cp
    | .star r1 =>
      ((mt dir fuel r1 s pos cp).flatMap
        (fun pc => if pc.1 ≠ pos then mt dir fuel (.star r1) s pc.1 pc.2 else [])) ++ [(pos, cp)]
    | .group n r1 =>
      (mt dir fuel r1 s pos cp).map (fun pc => (pc.1, (n, pos, pc.1) :: pc.2))

/-- Fuel that is ample for the interpreter on a given program and input. -/
def mtFuel (r : RE) (s : List Char) : Nat :=
  (r.size + 2) * (s.length + 2)

/-- Match is the result of a successful search: the input it was found in,
the group-0 span (`Index`, `Length`, in scalars), the cursor position where
the search stopped (`textpos`), the capture events of the winning path, and
the number of capture slots of the program. -/
structure Match where
  text : List Char
  Index : Nat
  Length : Nat
  textpos : Nat
  caps : Caps
  ngroups : Nat
deriving DecidableEq

/-- Group is a single capture slot's current span. -/
structure Group where
  Index : Nat
  Length : Nat
deriving DecidableEq

/-- Current span recorded for a slot: the most recent capture event wins;
a slot with no capture reports a zero span. -/
def findCap (caps : Caps) (k : Nat) : Group :=
  match caps.find? (fun t => t.1 == k) with
  | some t => ⟨min t.2.1 t.2.2, max t.2.1 t.2.2 - min t.2.1 t.2.2⟩
  | none => ⟨0, 0⟩

/-- The group array of a match: slot 0 is the whole match, the remaining
slots report their current capture span. -/
def Match.Groups (m : Match) : List Group :=
  (List.range m.ngroups).map (fun k => if k = 0 then ⟨m.Index, m.Length⟩ else findCap m.caps k)

/-- Regexp is the representation of a compiled regular expression: the
compiled program together with the capture bookkeeping the facade keeps
(`caps`, `capnames`, `capslist`, `capsize`) and the option bits. -/
structure Regexp where
  prog : RE
  options : Nat
  caps : Option (List (Int × Int))
  capnames : Option (List (List Char × Int))
  capslist : Option (List (List Char))
  capsize : Nat

/-- RightToLeft reports whether the `RightToLeft` option bit (0x40) is set. -/
def Regexp.RightToLeft (re : Regexp) : Bool :=
  re.options &&& 0x40 ≠ 0

/-- Candidate start positions for a left-to-right scan from `st`. -/
def candidatesL (st len : Nat) : List Nat :=
  List.range' st (len + 1 - st)

/-- Candidate start positions for a right-to-left scan from `st`. -/
def candidatesR (st : Nat) : List Nat :=
  (List.range (st + 1)).reverse

/-- Build the match for a left-to-right hit: scanning matched at `q` and the
cursor stopped at `p ≥ q`. -/
def mkMatchL (re : Regexp) (s : List Char) (q : Nat) (pc : Nat × Caps) : Match :=
  ⟨s, q, pc.1 - q, pc.1, pc.2, re.capsize⟩

/-- Build the match for a right-to-left hit: scanning matched at `q` and the
cursor stopped at `p ≤ q`. -/
def mkMatchR (re : Regexp) (s : List Char) (q : Nat) (pc : Nat × Caps) : Match :=
  ⟨s, pc.1, q - pc.1, pc.1, pc.2, re.capsize⟩

/-- Modelled from the spec: `Regexp.run` (`runner.go`, not under `src/`).
A negative start position means the caller did not pin the start: the scan
begins at the default position (0, or the end of the input in right-to-left
mode).  The VM iterates candidate start positions in scan order and returns
the first successful attempt; on success group 0 spans the cursor motion and
`textpos` is the cursor position where matching stopped (spec 4.2, 4.5). -/
def Regexp.runM (re : Regexp) (startAt : Int) (s : List Char) : Option Match :=
  if re.RightToLeft then
    let st : Nat := if startAt < 0 then s.length else startAt.toNat
    (candidatesR st).findSome? (fun q =>
      (mt true (mtFuel re.prog s) re.prog s q []).head?.map (fun pc => mkMatchR re s q pc))
  else
    let st : Nat := if startAt < 0 then 0 else startAt.toNat
    (candidatesL st s.length).findSome? (fun q =>
      (mt false (mtFuel re.prog s) re.prog s q []).head?.map (fun pc => mkMatchL re s q pc))

/-- getRunes converts a Go string to its scalar sequence; strings are already
embedded as scalar lists, so this is the identity. -/
def getRunes (s : List Char) : List Char :=
  s

/-- FindStringMatch searches the input string for a Regexp match. -/
def Regexp.FindStringMatch (re : Regexp) (s : List Char) : Except String (Option Match) :=
  .ok (re.runM (-1) (getRunes s))

/-- FindRunesMatch searches the input rune slice for a Regexp match. -/
def Regexp.FindRunesMatch (re : Regexp) (r : List Char) : Except String (Option Match) :=
  .ok (re.runM (-1) r)

/-- FindRunesMatchStartingAt searches the input rune slice for a Regexp match
starting at the startAt index. -/
def Regexp.FindRunesMatchStartingAt (re : Regexp) (r : List Char) (startAt : Int) :
    Except String (Option Match) :=
  .ok (re.runM startAt r)

/-- nextMatch is the body of FindNextMatch on a non-nil previous match: resume
from the previous match's stop position; a zero-width previous match at the
end of the input ends the iteration, any other zero-width previous match
advances the start by one scalar (back one in right-to-left mode) first. -/
def Regexp.nextMatch (re : Regexp) (m : Match) : Option Match :=
  let startAt : Int := m.textpos
  if m.Length = 0 then
    if m.textpos = m.text.length then none
    else re.runM (if re.RightToLeft then startAt - 1 else startAt + 1) m.text
  else
    re.runM startAt m.text

/-- FindNextMatch returns the next match in the same input string as the match
parameter; a nil previous match yields no match and no error. -/
def Regexp.FindNextMatch (re : Regexp) (m : Option Match) : Except String (Option Match) :=
  match m with
  | none => .ok none
  | some mm => .ok (re.nextMatch mm)

/-- MatchString reports whether the string matches the regex. -/
def Regexp.MatchString (re : Regexp) (s : List Char) : Except String Bool :=
  .ok (re.runM (-1) (getRunes s)).isSome

/-- MatchRunes reports whether the rune slice matches the regex. -/
def Regexp.MatchRunes (re : Regexp) (r : List Char) : Except String Bool :=
  .ok (re.runM (-1) r).isSome

/-- Byte-index walk of getRunesAndStart: the Go loop `for strIdx, r := range s`
compares each scalar's starting byte offset with the requested start and
reports that scalar's index; `-1` when no scalar starts there. -/
def byteFind : List Char → Nat → Nat → Nat → Int
  | [], _, _, _ => -1
  | c :: cs, tgt, off, i =>
    if off = tgt then (i : Int) else byteFind cs tgt (off + charUtf8Size c) (i + 1)

/-- getRunesAndStart decodes the string and maps a byte start index to the
corresponding scalar start; a negative start index selects the default start
(the scalar count in right-to-left mode, else 0), and an index that is not the
starting byte offset of any scalar maps to `-1`. -/
def Regexp.getRunesAndStart (re : Regexp) (s : List Char) (startAt : Int) :
    List Char × Int :=
  if startAt < 0 then
    if re.RightToLeft then (getRunes s, (s.length : Int)) else (getRunes s, 0)
  else
    (getRunes s, byteFind s startAt.toNat 0 0)

/-- FindStringMatchStartingAt searches the input string for a Regexp match
starting at the startAt byte index: an index beyond the byte length is
rejected, as is an index that does not align to the start of a scalar. -/
def Regexp.FindStringMatchStartingAt (re : Regexp) (s : List Char) (startAt : Int) :
    Except String (Option Match) :=
  if (strLen s : Int) < startAt then
    .error "startAt must be less than the length of the input string"
  else
    let p := re.getRunesAndStart s startAt
    if p.2 = -1 then
      .error "startAt must align to the start of a valid rune in the input string"
    else
      .ok (re.runM p.2 p.1)

/-- isErr reports whether a surface result is an error. -/
def isErr : Except String (Option Match) → Bool
  | .error _ => true
  | .ok _ => false

/-- Specification-side view of byte alignment: `byteToRune s t` is the index
of the scalar whose UTF-8 encoding starts at byte offset `t`, if any. -/
def byteToRune : List Char → Nat → Option Nat
  | [], _ => none
  | c :: cs, t =>
    if t = 0 then some 0
    else if t < charUtf8Size c then none
    else (byteToRune cs (t - charUtf8Size c)).map (· + 1)

/-- Signed 64-bit wrap-around of Go `int` arithmetic. -/
def wrap64 (x : Int) : Int :=
  (x + 2 ^ 63) % 2 ^ 64 - 2 ^ 63

/-- The digit-scanning loop of GroupNumberFromName: scans the name's bytes,
rejecting any byte outside `'0'..'9'`, and accumulates the decimal value in
wrapping Go `int` arithmetic. -/
def gnfnLoop : List Char → Int → Option Int
  | [], acc => some acc
  | c :: cs, acc =>
    if 57 < c.toNat ∨ c.toNat < 48 then none
    else gnfnLoop cs (wrap64 (wrap64 (acc * 10) + ((c.toNat : Int) - 48)))

/-- GroupNumberFromName returns a group number that corresponds to a group
name: a hash of declared names is consulted when present, otherwise an
all-digits name is converted to a number and accepted when it is in
`[0, capsize)`; every other name yields `-1`. -/
def Regexp.GroupNumberFromName (re : Regexp) (name : List Char) : Int :=
  match re.capnames with
  | some cn =>
    match cn.lookup name with
    | some k => k
    | none => -1
  | none =>
    match gnfnLoop name 0 with
    | none => -1
    | some result =>
      if 0 ≤ result ∧ result < (re.capsize : Int) then result else -1

/-- Decimal digits of a natural, little steps of `strconv.Itoa`. -/
def itoaAux : Nat → Nat → List Char
  | 0, _ => []
  | fuel + 1, n =>
    if n < 10 then [Char.ofNat (48 + n)]
    else itoaAux fuel (n / 10) ++ [Char.ofNat (48 + n % 10)]

/-- strconv.Itoa on a natural number. -/
def Itoa (n : Nat) : List Char :=
  itoaAux (n + 1) n

/-- GroupNameFromNumber retrieves a group name that corresponds to a group
number; unnamed groups automatically receive the decimal string of their
number and an unknown number yields the empty string. -/
def Regexp.GroupNameFromNumber (re : Regexp) (i : Int) : List Char :=
  match re.capslist with
  | none =>
    if 0 ≤ i ∧ i < (re.capsize : Int) then Itoa i.toNat else []
  | some cl =>
    match (match re.caps with
           | none => some i
           | some cps => cps.lookup i) with
    | none => []
    | some j =>
      if 0 ≤ j ∧ j < (cl.length : Int) then cl.getD j.toNat [] else []

/-- Exact decimal value of an all-digits name; `none` on any non-digit. -/
def decValAux : List Char → Nat → Option Nat
  | [], acc => some acc
  | c :: cs, acc =>
    if 48 ≤ c.toNat ∧ c.toNat ≤ 57 then decValAux cs (acc * 10 + (c.toNat - 48))
    else none

/-- Exact decimal value of a name, when it consists of digits only. -/
def decValue? (name : List Char) : Option Nat :=
  decValAux name 0

/-- Iteration body of FindAllStringIndex: repeat find-next up to the cap,
appending the group-0 index pair of each match; iteration halts on the first
nil result. -/
def findAllIdxAux (re : Regexp) : Nat → Option Match → List (List Nat)
  | 0, _ => []
  | _ + 1, none => []
  | fuel + 1, some m =>
    (match m.Groups with
     | [] => []
     | g :: _ => [[g.Index, g.Index + g.Length]]) ++ findAllIdxAux re fuel (re.nextMatch m)

/-- FindAllStringIndex returns the index pairs of all successive matches of
the expression, at most `n` of them when `n ≥ 0`. -/
def Regexp.FindAllStringIndex (re : Regexp) (s : List Char) (n : Int) : List (List Nat) :=
  let cap : Nat := if n < 0 then strLen s + 1 else n.toNat
  findAllIdxAux re cap (re.runM (-1) (getRunes s))

/-- Iteration body of FindAllStringSubmatchIndex: like findAllIdxAux but each
match contributes the index pairs of every group. -/
def findAllSubAux (re : Regexp) : Nat → Option Match → List (List Nat)
  | 0, _ => []
  | _ + 1, none => []
  | fuel + 1, some m =>
    (m.Groups.flatMap (fun g => [g.Index, g.Index + g.Length])) ::
      findAllSubAux re fuel (re.nextMatch m)

/-- FindAllStringSubmatchIndex returns, for each successive match, the index
pairs of the match and all of its subexpressions, capped at `n` when
`n ≥ 0`. -/
def Regexp.FindAllStringSubmatchIndex (re : Regexp) (s : List Char) (n : Int) :
    List (List Nat) :=
  let cap : Nat := if n < 0 then strLen s + 1 else n.toNat
  findAllSubAux re cap (re.runM (-1) (getRunes s))

/-- Loop of replaceAll, instrumented: returns the output byte buffer together
with the list of spans the replacement function was applied to.  Faithful to
the ported Go loop: the unmatched bytes before the match are copied, the
replacement is inserted unless the match is empty and starts at the end of the
previous match away from position 0, and the (otherwise unused) search
position is advanced by at least one unit. -/
def replaceAllAux (re : Regexp) (src : List Char)
    (repl : List Nat → Nat × Nat → List Nat) :
    Nat → Nat → Nat → List Nat → Option Match → List Nat × List (Nat × Nat)
  | 0, lastMatchEnd, _, buf, _ => (buf ++ (utf8Bytes src).drop lastMatchEnd, [])
  | _ + 1, lastMatchEnd, _, buf, none => (buf ++ (utf8Bytes src).drop lastMatchEnd, [])
  | fuel + 1, lastMatchEnd, searchPos, buf, some m =>
    let a0 := m.Index
    let a1 := m.Index + m.Length
    let buf1 := buf ++ sliceN (utf8Bytes src) lastMatchEnd a0
    let buf2 := if a1 > lastMatchEnd ∨ a0 = 0 then repl buf1 (a0, a1) else buf1
    let w := decodeWidth ((utf8Bytes src).drop searchPos)
    let searchPos' :=
      if searchPos + w > a1 then searchPos + w
      else if searchPos + 1 > a1 then searchPos + 1
      else a1
    let rest := replaceAllAux re src repl fuel a1 searchPos' buf2 (re.nextMatch m)
    (rest.1, (if a1 > lastMatchEnd ∨ a0 = 0 then [(a0, a1)] else []) ++ rest.2)

/-- replaceAll returns a copy of src in which all matches have been replaced
by the output of the replacement function. -/
def Regexp.replaceAll (re : Regexp) (src : List Char)
    (repl : List Nat → Nat × Nat → List Nat) : List Nat :=
  (replaceAllAux re src repl (2 * src.length + 4) 0 0 [] (re.runM (-1) (getRunes src))).1

/-- The spans at which replaceAll applied the replacement function, in
application order. -/
def replaceAllSpans (re : Regexp) (src : List Char)
    (repl : List Nat → Nat × Nat → List Nat) : List (Nat × Nat) :=
  (replaceAllAux re src repl (2 * src.length + 4) 0 0 [] (re.runM (-1) (getRunes src))).2

/-- ReplaceAllFunc returns a copy of src in which all matches of the Regexp
have been replaced by the return value of the function applied to the matched
bytes. -/
def Regexp.ReplaceAllFunc (re : Regexp) (src : List Char)
    (repl : List Nat → List Nat) : List Nat :=
  re.replaceAll src (fun dst a => dst ++ repl (sliceN (utf8Bytes src) a.1 a.2))

/-- One segment of a tokenized replacement template. -/
inductive ReplSeg where
  | lit : List Char → ReplSeg
  | grp : Nat → ReplSeg
deriving DecidableEq

/-- Modelled from the spec: the replacement-template tokenizer
(`syntax.NewReplacerData`, not under `src/`).  The template is tokenized once
into literal and capture-reference segments: `$` followed by digits refers to
the group of that number, `$$` is a literal dollar, a `$` followed by anything
else is a malformed-template error (spec 4.5, 6, 7).  The fuel is the
template length. -/
def tokenizeAux : Nat → List Char → Except String (List ReplSeg)
  | 0, _ => .ok []
  | _ + 1, [] => .ok []
  | fuel + 1, '$' :: rest =>
    match rest with
    | '$' :: rest2 =>
      (tokenizeAux fuel rest2).map (fun segs => .lit ['$'] :: segs)
    | c :: _ =>
      if 48 ≤ c.toNat ∧ c.toNat ≤ 57 then
        match decValAux (rest.takeWhile (fun d => 48 ≤ d.toNat ∧ d.toNat ≤ 57)) 0 with
        | some k =>
          (tokenizeAux fuel (rest.dropWhile (fun d => 48 ≤ d.toNat ∧ d.toNat ≤ 57))).map
            (fun segs => .grp k :: segs)
        | none => .error "error parsing replacement pattern"
      else .error "error parsing replacement pattern"
    | [] => .error "error parsing replacement pattern"
  | fuel + 1, c :: rest =>
    (tokenizeAux fuel rest).map (fun segs => .lit [c] :: segs)

/-- Tokenize a replacement template. -/
def tokenizeRepl (replacement : List Char) : Except String (List ReplSeg) :=
  tokenizeAux replacement.length replacement

/-- Text of one replacement segment for a given match: group 0 is the whole
match, other groups their current capture span. -/
def expandSeg (m : Match) : ReplSeg → List Char
  | .lit cs => cs
  | .grp 0 => (m.text.drop m.Index).take m.Length
  | .grp (n + 1) =>
    let g := findCap m.caps (n + 1)
    (m.text.drop g.Index).take g.Length

/-- Expansion of a tokenized template at a match. -/
def expandSegs (m : Match) (segs : List ReplSeg) : List Char :=
  segs.flatMap (expandSeg m)

/-- Left-to-right replacement loop, modelled from the spec: for each match
emit the unmatched text since the previous match followed by the expanded
replacement, until the count is exhausted or no match remains; the unmatched
tail is emitted last (spec 4.5). -/
def replAuxL (re : Regexp) (s : List Char) (segs : List ReplSeg) :
    Nat → Int → Nat → Option Match → List Char
  | 0, _, lastEnd, _ => s.drop lastEnd
  | _ + 1, _, lastEnd, none => s.drop lastEnd
  | fuel + 1, count, lastEnd, some m =>
    if count = 0 then s.drop lastEnd
    else
      (s.drop lastEnd).take (m.Index - lastEnd) ++ expandSegs m segs ++
        replAuxL re s segs fuel (count - 1) (m.Index + m.Length) (re.nextMatch m)

/-- Right-to-left replacement loop, modelled from the spec: matches are found
from the right; each step emits the text between this match's end and the
previous (righter) match's start after the expanded replacement. -/
def replAuxR (re : Regexp) (s : List Char) (segs : List ReplSeg) :
    Nat → Int → Nat → Option Match → List Char
  | 0, _, lastBeg, _ => s.take lastBeg
  | _ + 1, _, lastBeg, none => s.take lastBeg
  | fuel + 1, count, lastBeg, some m =>
    if count = 0 then s.take lastBeg
    else
      replAuxR re s segs fuel (count - 1) m.Index (re.nextMatch m) ++ expandSegs m segs ++
        sliceC s (m.Index + m.Length) lastBeg

/-- Replace searches the input string and replaces each match found with the
replacement text; count limits the number of matches attempted and startAt
skips past possible matches at the start of the input; both are `-1` to go
through the whole string.  A malformed replacement template is an error. -/
def Regexp.Replace (re : Regexp) (input replacement : List Char)
    (startAt count : Int) : Except String (List Char) :=
  match tokenizeRepl replacement with
  | .error e => .error e
  | .ok segs =>
    if re.RightToLeft then
      .ok (replAuxR re input segs (2 * input.length + 4) count input.length
        (re.runM startAt input))
    else
      .ok (replAuxL re input segs (2 * input.length + 4) count 0
        (re.runM startAt input))

/-- Bitmap used by `special` to check whether a character needs to be escaped.
The Go source declares `var specialBytes [16]byte` and the shown file contains
no `init` that populates it, so the array keeps Go's zero value. -/
def specialBytes : List Nat :=
  [0, 0, 0, 0, 0, 0, 0, 0, 0, 0, 0, 0, 0, 0, 0, 0]

/-- special reports whether byte b needs to be escaped by QuoteMeta. -/
def special (b : Nat) : Bool :=
  b < 128 ∧ specialBytes.getD (b % 16) 0 &&& (1 <<< (b / 16)) ≠ 0

/-- Index of the first special byte of a byte string, or its length. -/
def qmFirst : List Nat → Nat
  | [] => 0
  | b :: bs => if special b then 0 else qmFirst bs + 1

/-- Escaping pass of QuoteMeta from the first special byte on: a backslash
(byte 92) is emitted before every special byte. -/
def qmEscape (bs : List Nat) : List Nat :=
  bs.flatMap (fun b => if special b then [92, b] else [b])

/-- QuoteMeta returns a string that escapes the regular-expression
metacharacters recorded in `specialBytes` inside the argument byte string;
when no byte is special the input is returned unchanged. -/
def QuoteMeta (s : List Nat) : List Nat :=
  let i := qmFirst s
  if s.length ≤ i then s else s.take i ++ qmEscape (s.drop i)

/-- Largest group number occurring in a program. -/
def RE.maxGroup : RE → Nat
  | .eps => 0
  | .bol => 0
  | .lit _ => 0
  | .cls _ _ => 0
  | .seq a b => max a.maxGroup b.maxGroup
  | .alt a b => max a.maxGroup b.maxGroup
  | .star a => a.maxGroup
  | .group n a => max n a.maxGroup

/-- Modelled from the spec: Compile for an already-parsed program at default
options (the parser of the `syntax` package is not under `src/`).  The
capture bookkeeping of a pattern without named groups: no name tables and a
dense slot numbering whose size is one more than the largest group number. -/
def compileModel (p : RE) : Regexp :=
  ⟨p, 0, none, none, none, p.maxGroup + 1⟩

/-! ### Soundness of the modelled VM -/

theorem head?_mem {α : Type} {l : List α} {a : α} (h : l.head? = some a) : a ∈ l := by
  cases l with
  | nil => simp at h
  | cons x xs => simp at h; simp [h]

/-- Left-to-right matching only moves the cursor forward. -/
theorem mt_ge : ∀ (fuel : Nat) (r : RE) (s : List Char) (pos : Nat) (cp : Caps)
    (pc : Nat × Caps), pc ∈ mt false fuel r s pos cp → pos ≤ pc.1 := by
  intro fuel
  induction fuel with
  | zero => intro r s pos cp pc h; simp [mt] at h
  | succ f ih =>
    intro r s pos cp pc h
    cases r with
    | eps => simp [mt] at h; simp [h]
    | bol =>
      simp only [mt] at h
      split at h <;> simp at h
      simp [h]
    | lit c =>
      simp only [mt, Bool.false_eq_true, if_false] at h
      split at h <;> simp at h
      simp [h]
    | cls lo hi =>
      simp only [mt, Bool.false_eq_true, if_false] at h
      split at h <;> simp at h
      simp [h]
    | seq r1 r2 =>
      simp only [mt, List.mem_flatMap] at h
      obtain ⟨q, hq, hpc⟩ := h
      exact Nat.le_trans (ih _ _ _ _ _ hq) (ih _ _ _ _ _ hpc)
    | alt r1 r2 =>
      simp only [mt, List.mem_append] at h
      rcases h with h | h
      · exact ih _ _ _ _ _ h
      · exact ih _ _ _ _ _ h
    | star r1 =>
      simp only [mt, List.mem_append, List.mem_flatMap] at h
      rcases h with ⟨q, hq, h2⟩ | h
      · split at h2
        · exact Nat.le_trans (ih _ _ _ _ _ hq) (ih _ _ _ _ _ h2)
        · simp at h2
      · simp at h; simp [h]
    | group n r1 =>
      simp only [mt, List.mem_map] at h
      obtain ⟨q, hq, hpc⟩ := h
      have := ih _ _ _ _ _ hq
      rw [← hpc]
      exact this

/-- Left-to-right matching keeps the cursor inside the input. -/
theorem mt_ub : ∀ (fuel : Nat) (r : RE) (s : List Char) (pos : Nat) (cp : Caps)
    (pc : Nat × Caps), pos ≤ s.length → pc ∈ mt false fuel r s pos cp →
    pc.1 ≤ s.length := by
  intro fuel
  induction fuel with
  | zero => intro r s pos cp pc _ h; simp [mt] at h
  | succ f ih =>
    intro r s pos cp pc hub h
    cases r with
    | eps => simp [mt] at h; simp [h, hub]
    | bol =>
      simp only [mt] at h
      split at h <;> simp at h
      simp [h, hub]
    | lit c =>
      simp only [mt, Bool.false_eq_true, if_false] at h
      split at h <;> simp at h
      next hc => simp [h]; omega
    | cls lo hi =>
      simp only [mt, Bool.false_eq_true, if_false] at h
      split at h <;> simp at h
      next hc => simp [h]; omega
    | seq r1 r2 =>
      simp only [mt, List.mem_flatMap] at h
      obtain ⟨q, hq, hpc⟩ := h
      exact ih _ _ _ _ _ (ih _ _ _ _ _ hub hq) hpc
    | alt r1 r2 =>
      simp only [mt, List.mem_append] at h
      rcases h with h | h
      · exact ih _ _ _ _ _ hub h
      · exact ih _ _ _ _ _ hub h
    | star r1 =>
      simp only [mt, List.mem_append, List.mem_flatMap] at h
      rcases h with ⟨q, hq, h2⟩ | h
      · split at h2
        · exact ih _ _ _ _ _ (ih _ _ _ _ _ hub hq) h2
        · simp at h2
      · simp at h; simp [h, hub]
    | group n r1 =>
      simp only [mt, List.mem_map] at h
      obtain ⟨q, hq, hpc⟩ := h
      have := ih _ _ _ _ _ hub hq
      rw [← hpc]
      exact this

/-- Right-to-left matching only moves the cursor backward. -/
theorem mt_le : ∀ (fuel : Nat) (r : RE) (s : List Char) (pos : Nat) (cp : Caps)
    (pc : Nat × Caps), pc ∈ mt true fuel r s pos cp → pc.1 ≤ pos := by
  intro fuel
  induction fuel with
  | zero => intro r s pos cp pc h; simp [mt] at h
  | succ f ih =>
    intro r s pos cp pc h
    cases r with
    | eps => simp [mt] at h; simp [h]
    | bol =>
      simp only [mt] at h
      split at h <;> simp at h
      simp [h]
    | lit c =>
      simp only [mt, if_true] at h
      split at h <;> simp at h
      simp [h]
    | cls lo hi =>
      simp only [mt, if_true] at h
      split at h <;> simp at h
      simp [h]
    | seq r1 r2 =>
      simp only [mt, List.mem_flatMap] at h
      obtain ⟨q, hq, hpc⟩ := h
      exact Nat.le_trans (ih _ _ _ _ _ hpc) (ih _ _ _ _ _ hq)
    | alt r1 r2 =>
      simp only [mt, List.mem_append] at h
      rcases h with h | h
      · exact ih _ _ _ _ _ h
      · exact ih _ _ _ _ _ h
    | star r1 =>
      simp only [mt, List.mem_append, List.mem_flatMap] at h
      rcases h with ⟨q, hq, h2⟩ | h
      · split at h2
        · exact Nat.le_trans (ih _ _ _ _ _ h2) (ih _ _ _ _ _ hq)
        · simp at h2
      · simp at h; simp [h]
    | group n r1 =>
      simp only [mt, List.mem_map] at h
      obtain ⟨q, hq, hpc⟩ := h
      have := ih _ _ _ _ _ hq
      rw [← hpc]
      exact this

/-- Soundness of the modelled left-to-right search: a returned match reports
the scanned input, the program's capture count, a stop position equal to the
end of the group-0 span, a start no earlier than the requested start, and a
span inside the input whenever the requested start is. -/
theorem runM_sound_ltr {re : Regexp} {startAt : Int} {s : List Char} {m : Match}
    (hr : re.RightToLeft = false) (h : re.runM startAt s = some m) :
    m.text = s ∧ m.ngroups = re.capsize ∧ m.textpos = m.Index + m.Length ∧
      (0 ≤ startAt → startAt.toNat ≤ m.Index) ∧
      (startAt ≤ (s.length : Int) → m.Index + m.Length ≤ s.length) := by
  simp only [Regexp.runM, hr, Bool.false_eq_true, if_false] at h
  obtain ⟨q, hqmem, hq⟩ := List.exists_of_findSome?_eq_some h
  rw [Option.map_eq_some'] at hq
  obtain ⟨pc, hhead, hmk⟩ := hq
  have hge : q ≤ pc.1 := mt_ge _ _ _ _ _ _ (head?_mem hhead)
  simp only [candidatesL, List.mem_range'_1] at hqmem
  subst hmk
  refine ⟨rfl, rfl, ?_, ?_, ?_⟩
  · simp [mkMatchL]; omega
  · intro h0
    simp only [mkMatchL]
    rw [if_neg (by omega)] at hqmem
    exact hqmem.1
  · intro hlen
    have hst : (if startAt < 0 then 0 else startAt.toNat) ≤ s.length := by
      split
      · exact Nat.zero_le _
      · exact Int.toNat_le.mpr hlen
    have hql : q ≤ s.length := by omega
    have := mt_ub _ _ _ _ _ _ hql (head?_mem hhead)
    simp [mkMatchL]
    omega

/-- Soundness of the modelled right-to-left search: a returned match reports
the scanned input, the program's capture count, a stop position equal to the
start of the group-0 span, and a span that ends no later than the requested
start (the end of the input for an unpinned start). -/
theorem runM_sound_rtl {re : Regexp} {startAt : Int} {s : List Char} {m : Match}
    (hr : re.RightToLeft = true) (h : re.runM startAt s = some m) :
    m.text = s ∧ m.ngroups = re.capsize ∧ m.textpos = m.Index ∧
      m.Index + m.Length ≤ (if startAt < 0 then s.length else startAt.toNat) ∧
      (startAt ≤ (s.length : Int) → m.Index + m.Length ≤ s.length) := by
  simp only [Regexp.runM, hr, if_true] at h
  obtain ⟨q, hqmem, hq⟩ := List.exists_of_findSome?_eq_some h
  rw [Option.map_eq_some'] at hq
  obtain ⟨pc, hhead, hmk⟩ := hq
  have hle : pc.1 ≤ q := mt_le _ _ _ _ _ _ (head?_mem hhead)
  simp only [candidatesR, List.mem_reverse, List.mem_range] at hqmem
  subst hmk
  refine ⟨rfl, rfl, rfl, ?_, ?_⟩
  · simp only [mkMatchR]
    omega
  · intro hlen
    have hst : (if startAt < 0 then s.length else startAt.toNat) ≤ s.length := by
      split
      · exact Nat.le_refl _
      · exact Int.toNat_le.mpr hlen
    simp only [mkMatchR]
    omega

/-- Soundness of FindNextMatch's body in left-to-right mode: the next match is
on the same input, starts no earlier than the previous stop position (one
scalar later when the previous match was empty), and stays inside the
input. -/
theorem nextMatch_sound_ltr {re : Regexp} {m m' : Match} (hr : re.RightToLeft = false)
    (hwf : m.textpos = m.Index + m.Length) (h : re.nextMatch m = some m') :
    m'.text = m.text ∧ m'.ngroups = re.capsize ∧ m'.textpos = m'.Index + m'.Length ∧
      m.Index + m.Length ≤ m'.Index ∧ (m.Length = 0 → m.Index + 1 ≤ m'.Index) ∧
      (m.textpos ≤ m.text.length → m'.Index + m'.Length ≤ m.text.length) := by
  simp only [Regexp.nextMatch, hr, Bool.false_eq_true, if_false] at h
  by_cases hz : m.Length = 0
  · rw [if_pos hz] at h
    by_cases he : m.textpos = m.text.length
    · rw [if_pos he] at h
      exact absurd h (by simp)
    · rw [if_neg he] at h
      obtain ⟨ht, hg, hwf', hs, hb⟩ := runM_sound_ltr hr h
      have hs' := hs (by omega)
      refine ⟨ht, hg, hwf', by omega, by omega, ?_⟩
      intro hub
      have hb' := hb (by omega)
      omega
  · rw [if_neg hz] at h
    obtain ⟨ht, hg, hwf', hs, hb⟩ := runM_sound_ltr hr h
    have hs' := hs (by omega)
    refine ⟨ht, hg, hwf', by omega, ?_, ?_⟩
    · intro hzz
      exact absurd hzz hz
    · intro hub
      have hb' := hb (by omega)
      omega

/-- Each scalar occupies at least one byte. -/
theorem charUtf8Size_pos (c : Char) : 1 ≤ charUtf8Size c := by
  unfold charUtf8Size
  repeat' split
  all_goals omega

/-- The scalar count of a string never exceeds its byte length. -/
theorem length_le_strLen (s : List Char) : s.length ≤ strLen s := by
  induction s with
  | nil => simp [strLen]
  | cons c cs ih =>
    have := charUtf8Size_pos c
    simp only [strLen, List.map_cons, List.sum_cons, List.length_cons] at *
    omega

/-- C1: for every pattern and input string, if MatchString returns true with
no error, then FindStringMatch under the same options returns a non-nil Match
whose group-0 span [Index, Index+Length] lies inside [0, len(S)] (both for the
scalar count and for the Go byte length of the input). -/
theorem matchString_findStringMatch (re : Regexp) (s : List Char)
    (h : re.MatchString s = .ok true) :
    ∃ m, re.FindStringMatch s = .ok (some m) ∧
      m.Index + m.Length ≤ s.length ∧ m.Index + m.Length ≤ strLen s := by
  simp only [Regexp.MatchString, Except.ok.injEq] at h
  obtain ⟨m, hm⟩ := Option.isSome_iff_exists.mp h
  have hlen : m.Index + m.Length ≤ s.length := by
    by_cases hr : re.RightToLeft = true
    · exact (runM_sound_rtl hr hm).2.2.2.2 (by omega)
    · have hr' : re.RightToLeft = false := by
        revert hr
        cases re.RightToLeft <;> simp
      exact (runM_sound_ltr hr' hm).2.2.2.2 (by omega)
  exact ⟨m, by simp [Regexp.FindStringMatch, hm], hlen,
    Nat.le_trans hlen (length_le_strLen s)⟩

/-- Literal-`a` Regexp at default options, used as a witness input. -/
def re1w : Regexp := ⟨.lit 'a', 0, none, none, none, 1⟩

/-- C1 (witness): the hypothesis of `matchString_findStringMatch` holds at a
concrete pattern and input. -/
theorem matchString_findStringMatch_witness :
    re1w.MatchString ['a'] = .ok true ∧
    ∃ m, re1w.FindStringMatch ['a'] = .ok (some m) ∧
      m.Index + m.Length ≤ (['a'] : List Char).length ∧
      m.Index + m.Length ≤ strLen ['a'] :=
  ⟨by rfl, matchString_findStringMatch re1w ['a'] (by rfl)⟩

/-- C2 (amended): in left-to-right mode, FindNextMatch never returns a match
with the same span as a well-formed previous match: an empty previous match
at the end of the input yields nil, otherwise the next match starts strictly
after the previous span's start, hence iterating FindNextMatch never yields
the same span twice in a row.  (In right-to-left mode an empty match at
position 0 of a non-empty input restarts the scan from the default position
and can repeat: see `findNextMatch_rtl_repeat`.) -/
theorem findNextMatch_no_repeat (re : Regexp) (m m' : Match)
    (hr : re.RightToLeft = false)
    (hwf : m.textpos = m.Index + m.Length) (hub : m.textpos ≤ m.text.length) :
    (m.Length = 0 ∧ m.textpos = m.text.length → re.FindNextMatch (some m) = .ok none) ∧
    (re.FindNextMatch (some m) = .ok (some m') →
      ¬(m'.Index = m.Index ∧ m'.Length = m.Length) ∧
      m'.text = m.text ∧ m'.textpos = m'.Index + m'.Length ∧
      m'.textpos ≤ m'.text.length) := by
  constructor
  · rintro ⟨hz, he⟩
    simp [Regexp.FindNextMatch, Regexp.nextMatch, hz, he]
  · intro h
    simp only [Regexp.FindNextMatch, Except.ok.injEq] at h
    obtain ⟨ht, hg, hwf', hge, hzp, hb⟩ := nextMatch_sound_ltr hr hwf h
    refine ⟨?_, ht, hwf', ?_⟩
    · rintro ⟨hi, hl⟩
      by_cases hz : m.Length = 0
      · have := hzp hz
        omega
      · omega
    · rw [ht, hwf']
      have := hb hub
      omega

/-- C2 (witness): the hypotheses of `findNextMatch_no_repeat` hold at a
concrete left-to-right Regexp and a match it produced. -/
theorem findNextMatch_no_repeat_witness :
    re1w.RightToLeft = false ∧
    ((⟨['a', 'a'], 0, 1, 1, [], 1⟩ : Match).textpos =
      (⟨['a', 'a'], 0, 1, 1, [], 1⟩ : Match).Index +
        (⟨['a', 'a'], 0, 1, 1, [], 1⟩ : Match).Length) ∧
    (((⟨['a', 'a'], 0, 1, 1, [], 1⟩ : Match).Length = 0 ∧
        (⟨['a', 'a'], 0, 1, 1, [], 1⟩ : Match).textpos =
          (⟨['a', 'a'], 0, 1, 1, [], 1⟩ : Match).text.length →
        re1w.FindNextMatch (some ⟨['a', 'a'], 0, 1, 1, [], 1⟩) = .ok none) ∧
      (re1w.FindNextMatch (some ⟨['a', 'a'], 0, 1, 1, [], 1⟩) =
          .ok (some ⟨['a', 'a'], 1, 1, 2, [], 1⟩) →
        ¬((⟨['a', 'a'], 1, 1, 2, [], 1⟩ : Match).Index =
            (⟨['a', 'a'], 0, 1, 1, [], 1⟩ : Match).Index ∧
          (⟨['a', 'a'], 1, 1, 2, [], 1⟩ : Match).Length =
            (⟨['a', 'a'], 0, 1, 1, [], 1⟩ : Match).Length) ∧
        (⟨['a', 'a'], 1, 1, 2, [], 1⟩ : Match).text =
          (⟨['a', 'a'], 0, 1, 1, [], 1⟩ : Match).text ∧
        (⟨['a', 'a'], 1, 1, 2, [], 1⟩ : Match).textpos =
          (⟨['a', 'a'], 1, 1, 2, [], 1⟩ : Match).Index +
            (⟨['a', 'a'], 1, 1, 2, [], 1⟩ : Match).Length ∧
        (⟨['a', 'a'], 1, 1, 2, [], 1⟩ : Match).textpos ≤
          (⟨['a', 'a'], 1, 1, 2, [], 1⟩ : Match).text.length)) :=
  ⟨rfl, rfl,
    findNextMatch_no_repeat re1w ⟨['a', 'a'], 0, 1, 1, [], 1⟩
      ⟨['a', 'a'], 1, 1, 2, [], 1⟩ rfl rfl (by simp)⟩

/-- Right-to-left Regexp whose program is the Beginning anchor. -/
def reR : Regexp := ⟨.bol, 0x40, none, none, none, 1⟩

/-- One-scalar input for the right-to-left counterexample. -/
def bInput : List Char := ['b']

/-- The zero-width match of `reR` at position 0 of `bInput`. -/
def mR0 : Match := ⟨['b'], 0, 0, 0, [], 1⟩

/-- C2 (counterexample): for the right-to-left Regexp `reR` on input "b",
the search pinned at 0 produces the zero-width match `mR0` (span (0,0), not at
the end of the input), and FindNextMatch applied to it returns a match with
exactly the same span again: the claimed "never returns a match with the same
span" fails in right-to-left mode. -/
theorem findNextMatch_rtl_repeat :
    reR.FindRunesMatchStartingAt bInput 0 = .ok (some mR0) ∧
    mR0.textpos ≠ bInput.length ∧
    reR.FindNextMatch (some mR0) = .ok (some mR0) :=
  ⟨by rfl, by decide, by rfl⟩

/-- C9: FindNextMatch called with a nil match returns no match and no error,
for every receiver Regexp. -/
theorem findNextMatch_nil (re : Regexp) : re.FindNextMatch none = .ok none := rfl

/-- The byte walk reports no scalar once the target offset is behind it. -/
theorem byteFind_none : ∀ (s : List Char) (tgt off i : Nat), tgt < off →
    byteFind s tgt off i = -1 := by
  intro s
  induction s with
  | nil => intro tgt off i _; rfl
  | cons c cs ih =>
    intro tgt off i hlt
    unfold byteFind
    rw [if_neg (by omega)]
    exact ih _ _ _ (by omega)

/-- The byte walk of getRunesAndStart agrees with the specification-side
alignment map: it finds exactly the scalar whose encoding starts at the
requested byte offset. -/
theorem byteFind_eq : ∀ (s : List Char) (t off i : Nat),
    byteFind s (off + t) off i =
      (match byteToRune s t with
       | some k => ((i + k : Nat) : Int)
       | none => -1) := by
  intro s
  induction s with
  | nil => intro t off i; rfl
  | cons c cs ih =>
    intro t off i
    by_cases ht : t = 0
    · subst ht
      unfold byteFind byteToRune
      simp
    · unfold byteFind byteToRune
      rw [if_neg (by omega), if_neg ht]
      by_cases hsz : t < charUtf8Size c
      · rw [if_pos hsz]
        rw [byteFind_none _ _ _ _ (by omega)]
      · rw [if_neg hsz]
        have harith : off + t = off + charUtf8Size c + (t - charUtf8Size c) := by omega
        rw [harith, ih]
        cases hbt : byteToRune cs (t - charUtf8Size c) with
        | none => simp
        | some k =>
          show ((i + 1 + k : Nat) : Int) = ((i + (k + 1) : Nat) : Int)
          congr 1
          omega

/-- An offset at which a scalar starts is inside the byte length. -/
theorem byteToRune_le : ∀ (s : List Char) (t k : Nat),
    byteToRune s t = some k → t ≤ strLen s := by
  intro s
  induction s with
  | nil => intro t k h; simp [byteToRune] at h
  | cons c cs ih =>
    intro t k h
    unfold byteToRune at h
    by_cases ht : t = 0
    · subst ht; exact Nat.zero_le _
    · rw [if_neg ht] at h
      by_cases hsz : t < charUtf8Size c
      · rw [if_pos hsz] at h; simp at h
      · rw [if_neg hsz] at h
        rw [Option.map_eq_some'] at h
        obtain ⟨k', hk', _⟩ := h
        have := ih _ _ hk'
        simp only [strLen, List.map_cons, List.sum_cons]
        have : strLen cs = (cs.map charUtf8Size).sum := rfl
        simp only [strLen] at *
        omega

/-- The scalar list handed to the search by getRunesAndStart is the decoded
input itself. -/
theorem getRunesAndStart_fst (re : Regexp) (s : List Char) (startAt : Int) :
    (re.getRunesAndStart s startAt).1 = s := by
  unfold Regexp.getRunesAndStart getRunes
  split
  · split <;> rfl
  · rfl

/-- For a negative requested start, getRunesAndStart reports a non-negative
default start. -/
theorem getRunesAndStart_snd_neg (re : Regexp) (s : List Char) (startAt : Int)
    (h : startAt < 0) : 0 ≤ (re.getRunesAndStart s startAt).2 := by
  unfold Regexp.getRunesAndStart
  rw [if_pos h]
  split <;> simp

/-- For a non-negative requested start, getRunesAndStart reports the aligned
scalar index, or -1 when the byte offset starts no scalar. -/
theorem getRunesAndStart_snd_nonneg (re : Regexp) (s : List Char) (startAt : Int)
    (h : 0 ≤ startAt) :
    (re.getRunesAndStart s startAt).2 =
      (match byteToRune s startAt.toNat with
       | some k => (k : Int)
       | none => -1) := by
  unfold Regexp.getRunesAndStart
  rw [if_neg (by omega)]
  have hb := byteFind_eq s startAt.toNat 0 0
  rw [Nat.zero_add] at hb
  simp only [Nat.zero_add] at hb
  exact hb

/-- Aligned case of getRunesAndStart's reported start. -/
theorem getRunesAndStart_snd_some (re : Regexp) (s : List Char) (startAt : Int)
    (k : Nat) (h0 : 0 ≤ startAt) (h : byteToRune s startAt.toNat = some k) :
    (re.getRunesAndStart s startAt).2 = (k : Int) := by
  rw [getRunesAndStart_snd_nonneg re s startAt h0, h]

/-- Misaligned case of getRunesAndStart's reported start. -/
theorem getRunesAndStart_snd_none (re : Regexp) (s : List Char) (startAt : Int)
    (h0 : 0 ≤ startAt) (h : byteToRune s startAt.toNat = none) :
    (re.getRunesAndStart s startAt).2 = -1 := by
  rw [getRunesAndStart_snd_nonneg re s startAt h0, h]

/-- C4 (amended): FindStringMatchStartingAt errors exactly when the start
index exceeds the byte length of the input, or is non-negative but is not the
byte offset at which some scalar starts (in particular when it splits a
multi-byte scalar, or equals the byte length); a non-negative aligned index
proceeds to search from the corresponding scalar index, and a negative index
is not an error: it selects the default start instead. -/
theorem findStringMatchStartingAt_spec (re : Regexp) (s : List Char) (startAt : Int) :
    (isErr (re.FindStringMatchStartingAt s startAt) = true ↔
      ((strLen s : Int) < startAt ∨ (0 ≤ startAt ∧ byteToRune s startAt.toNat = none))) ∧
    (∀ k : Nat, 0 ≤ startAt → byteToRune s startAt.toNat = some k →
      re.FindStringMatchStartingAt s startAt = .ok (re.runM (k : Int) s)) ∧
    (startAt < 0 → isErr (re.FindStringMatchStartingAt s startAt) = false) := by
  refine ⟨?_, ?_, ?_⟩
  · by_cases hgt : (strLen s : Int) < startAt
    · simp only [Regexp.FindStringMatchStartingAt, if_pos hgt]
      simp only [isErr, true_iff]
      exact Or.inl hgt
    · simp only [Regexp.FindStringMatchStartingAt, if_neg hgt]
      by_cases hneg : startAt < 0
      · have h2 := getRunesAndStart_snd_neg re s startAt hneg
        have hcond : ¬((re.getRunesAndStart s startAt).2 = -1) := by omega
        rw [if_neg hcond]
        simp only [isErr, Bool.false_eq_true, false_iff]
        rintro (h | ⟨h0, _⟩)
        · exact hgt h
        · omega
      · cases hbt : byteToRune s startAt.toNat with
        | none =>
          have h2 := getRunesAndStart_snd_none re s startAt (by omega) hbt
          rw [if_pos h2]
          simp only [isErr, true_iff]
          exact Or.inr ⟨by omega, trivial⟩
        | some k =>
          have h2 := getRunesAndStart_snd_some re s startAt k (by omega) hbt
          have hcond : ¬((re.getRunesAndStart s startAt).2 = -1) := by
            rw [h2]
            omega
          rw [if_neg hcond]
          simp only [isErr, Bool.false_eq_true, false_iff]
          rintro (h | ⟨h0, hnone⟩)
          · exact hgt h
          · exact Option.noConfusion hnone
  · intro k h0 hk
    have hle := byteToRune_le s startAt.toNat k hk
    simp only [Regexp.FindStringMatchStartingAt]
    have hcond1 : ¬((strLen s : Int) < startAt) := by omega
    rw [if_neg hcond1]
    have h2 := getRunesAndStart_snd_some re s startAt k h0 hk
    have hcond2 : ¬((re.getRunesAndStart s startAt).2 = -1) := by
      rw [h2]
      omega
    rw [if_neg hcond2]
    rw [h2, getRunesAndStart_fst]
  · intro hneg
    simp only [Regexp.FindStringMatchStartingAt]
    have hcond1 : ¬((strLen s : Int) < startAt) := by omega
    rw [if_neg hcond1]
    have h2 := getRunesAndStart_snd_neg re s startAt hneg
    have hcond2 : ¬((re.getRunesAndStart s startAt).2 = -1) := by omega
    rw [if_neg hcond2]
    rfl

/-- C4 (counterexample): a negative start position lies outside the input yet
FindStringMatchStartingAt does not return an error for it; the original
"errors exactly when the start is outside the input" is refuted at
startAt = -1. -/
theorem findStringMatchStartingAt_negative :
    (-1 : Int) < 0 ∧ isErr (re1w.FindStringMatchStartingAt ['a', 'b'] (-1)) = false :=
  ⟨by decide, by rfl⟩

/-- Every entry of the (never initialized) special-byte bitmap is zero. -/
theorem getD_specialBytes (i : Nat) : specialBytes.getD i 0 = 0 := by
  by_cases h : i < 16
  · have hall : ∀ j, j < 16 → specialBytes.getD j 0 = 0 := by decide
    exact hall i h
  · exact List.getD_eq_default _ _ (by simp [specialBytes]; omega)

/-- No byte is reported as special: the bitmap was never populated. -/
theorem special_false (b : Nat) : special b = false := by
  unfold special
  rw [getD_specialBytes (b % 16)]
  simp

/-- The first-special scan always runs off the end of the string. -/
theorem qmFirst_eq_length (s : List Nat) : qmFirst s = s.length := by
  induction s with
  | nil => rfl
  | cons b bs ih =>
    simp [qmFirst, special_false, ih]

/-- C3: QuoteMeta escapes nothing at all — it returns every byte string
unchanged, because the `specialBytes` bitmap is declared but never populated
(the `init` of the ported Go code is missing); in particular the
metacharacter `[` (byte 91) is not special, so the result of QuoteMeta is not
a literal-matching pattern, contradicting QuoteMeta's own documentation. -/
theorem quoteMeta_unescaped :
    (∀ s : List Nat, QuoteMeta s = s) ∧ special 91 = false := by
  refine ⟨?_, special_false 91⟩
  intro s
  unfold QuoteMeta
  rw [qmFirst_eq_length]
  simp

/-- Wrapping is the identity inside the signed 64-bit range. -/
theorem wrap64_eq (x : Int) (h1 : -2 ^ 63 ≤ x) (h2 : x < 2 ^ 63) : wrap64 x = x := by
  unfold wrap64
  omega

/-- The exact decimal accumulator never decreases. -/
theorem decValAux_le : ∀ (name : List Char) (acc k : Nat),
    decValAux name acc = some k → acc ≤ k := by
  intro name
  induction name with
  | nil =>
    intro acc k h
    simp [decValAux] at h
    omega
  | cons c cs ih =>
    intro acc k h
    unfold decValAux at h
    split at h
    · have := ih _ _ h
      omega
    · simp at h

/-- On digit strings of value below 2^63 the Go digit loop computes the exact
decimal value: no wrap-around occurs. -/
theorem gnfnLoop_eq : ∀ (name : List Char) (acc k : Nat),
    decValAux name acc = some k → k < 2 ^ 63 →
    gnfnLoop name (acc : Int) = some (k : Int) := by
  intro name
  induction name with
  | nil =>
    intro acc k h hk
    simp [decValAux] at h
    simp [gnfnLoop, h]
  | cons c cs ih =>
    intro acc k h hk
    unfold decValAux at h
    split at h
    next hd =>
      have hle := decValAux_le _ _ _ h
      unfold gnfnLoop
      have hcond : ¬(57 < c.toNat ∨ c.toNat < 48) := by omega
      rw [if_neg hcond]
      have e1 : wrap64 ((acc : Int) * 10) = (acc : Int) * 10 :=
        wrap64_eq _ (by omega) (by omega)
      rw [e1]
      have e2 : (acc : Int) * 10 + ((c.toNat : Int) - 48) =
          ((acc * 10 + (c.toNat - 48) : Nat) : Int) := by
        omega
      rw [e2, wrap64_eq _ (by omega) (by omega)]
      exact ih _ _ h hk
    next hd =>
      simp at h

/-- The Go digit loop rejects exactly the names the exact loop rejects. -/
theorem gnfnLoop_none : ∀ (name : List Char) (acc : Nat) (accI : Int),
    decValAux name acc = none → gnfnLoop name accI = none := by
  intro name
  induction name with
  | nil =>
    intro acc accI h
    simp [decValAux] at h
  | cons c cs ih =>
    intro acc accI h
    unfold decValAux at h
    unfold gnfnLoop
    split at h
    next hd =>
      have hcond : ¬(57 < c.toNat ∨ c.toNat < 48) := by omega
      rw [if_neg hcond]
      exact ih _ _ h
    next hd =>
      rw [if_pos (by omega)]

/-- C8 (amended): for a compiled pattern with no named capture groups, an
all-digits name (leading zeros and the empty name included) whose exact value
k is below capsize maps to slot k; an all-digits name whose value is at least
capsize (and inside the 64-bit range, where no wrap-around intervenes) maps to
-1, as does any name containing a non-digit.  Conversely GroupNameFromNumber
returns the decimal string of every valid slot number and the empty string
for any unknown number. -/
theorem groupName_numbering (re : Regexp) (h1 : re.capnames = none)
    (h2 : re.capslist = none) (h3 : re.capsize ≤ 2 ^ 63) :
    (∀ (name : List Char) (k : Nat), decValue? name = some k →
      ((k < re.capsize → re.GroupNumberFromName name = (k : Int)) ∧
       (re.capsize ≤ k → k < 2 ^ 63 → re.GroupNumberFromName name = -1))) ∧
    (∀ name : List Char, decValue? name = none → re.GroupNumberFromName name = -1) ∧
    (∀ i : Nat, i < re.capsize → re.GroupNameFromNumber (i : Int) = Itoa i) ∧
    (∀ i : Int, i < 0 ∨ (re.capsize : Int) ≤ i → re.GroupNameFromNumber i = []) := by
  refine ⟨?_, ?_, ?_, ?_⟩
  · intro name k h
    unfold decValue? at h
    constructor
    · intro hk
      have hloop := gnfnLoop_eq name 0 k h (by omega)
      rw [Nat.cast_zero] at hloop
      simp only [Regexp.GroupNumberFromName, h1, hloop]
      rw [if_pos ⟨by omega, by exact_mod_cast hk⟩]
    · intro hk hk63
      have hloop := gnfnLoop_eq name 0 k h hk63
      rw [Nat.cast_zero] at hloop
      simp only [Regexp.GroupNumberFromName, h1, hloop]
      have hcond : ¬(0 ≤ (k : Int) ∧ (k : Int) < (re.capsize : Int)) := by omega
      rw [if_neg hcond]
  · intro name h
    unfold decValue? at h
    have hloop := gnfnLoop_none name 0 0 h
    simp only [Regexp.GroupNumberFromName, h1, hloop]
  · intro i hi
    simp only [Regexp.GroupNameFromNumber, h2]
    rw [if_pos ⟨by omega, by exact_mod_cast hi⟩]
    rw [Int.toNat_natCast]
  · intro i hi
    simp only [Regexp.GroupNameFromNumber, h2]
    have hcond : ¬(0 ≤ i ∧ i < (re.capsize : Int)) := by omega
    rw [if_neg hcond]

/-- A Regexp with three unnamed capture slots, used for name witnesses. -/
def re8w : Regexp := ⟨.lit 'a', 0, none, none, none, 3⟩

/-- C8 (witness): the hypotheses of `groupName_numbering` hold at a concrete
unnamed-groups Regexp. -/
theorem groupName_numbering_witness :
    re8w.capnames = none ∧ re8w.capslist = none ∧ re8w.capsize ≤ 2 ^ 63 ∧
    ((∀ (name : List Char) (k : Nat), decValue? name = some k →
      ((k < re8w.capsize → re8w.GroupNumberFromName name = (k : Int)) ∧
       (re8w.capsize ≤ k → k < 2 ^ 63 → re8w.GroupNumberFromName name = -1))) ∧
     (∀ name : List Char, decValue? name = none → re8w.GroupNumberFromName name = -1) ∧
     (∀ i : Nat, i < re8w.capsize → re8w.GroupNameFromNumber (i : Int) = Itoa i) ∧
     (∀ i : Int, i < 0 ∨ (re8w.capsize : Int) ≤ i → re8w.GroupNameFromNumber i = [])) :=
  ⟨rfl, rfl, by norm_num [re8w], groupName_numbering re8w rfl rfl (by norm_num [re8w])⟩

/-- C8 (counterexample): the all-digits name "00" is not the decimal
representation of any slot number of `re8w` (those are "0", "1", "2"), yet
GroupNumberFromName maps it to slot 0 rather than returning -1: leading
zeros are accepted, refuting the claim's "-1 for every name that is not a
recognized group name". -/
theorem groupNumberFromName_leading_zeros :
    re8w.GroupNumberFromName ['0', '0'] = 0 ∧ ((0 : Int) ≠ -1) ∧
    (∀ k : Nat, k < re8w.capsize → Itoa k ≠ ['0', '0']) :=
  ⟨by rfl, by decide, by decide⟩

/-- C10: with the capture-name table absent, the digit-scanning loop accepts
the empty name vacuously and GroupNumberFromName "" returns 0, the
whole-match slot, for every pattern with at least one slot. -/
theorem groupNumberFromName_empty (re : Regexp) (h1 : re.capnames = none)
    (h2 : 0 < re.capsize) : re.GroupNumberFromName [] = 0 := by
  simp only [Regexp.GroupNumberFromName, h1, gnfnLoop]
  rw [if_pos ⟨by omega, by exact_mod_cast h2⟩]

/-- C10 (witness): the hypotheses of `groupNumberFromName_empty` hold at a
concrete Regexp. -/
theorem groupNumberFromName_empty_witness :
    re8w.capnames = none ∧ 0 < re8w.capsize ∧ re8w.GroupNumberFromName [] = 0 :=
  ⟨rfl, by decide, groupNumberFromName_empty re8w rfl (by decide)⟩

/-- The find-all loop performs at most `fuel` iterations, so it appends at
most `fuel` index pairs. -/
theorem findAllIdxAux_length_le (re : Regexp) :
    ∀ (fuel : Nat) (mo : Option Match), (findAllIdxAux re fuel mo).length ≤ fuel := by
  intro fuel
  induction fuel with
  | zero => intro mo; simp [findAllIdxAux]
  | succ f ih =>
    intro mo
    cases mo with
    | none => simp [findAllIdxAux]
    | some m =>
      simp only [findAllIdxAux, List.length_append]
      have := ih (re.nextMatch m)
      cases m.Groups with
      | nil => simpa using by omega
      | cons g gs => simp only [List.length_cons, List.length_nil]; omega

/-- Modelled from the spec: the compiled form of the pattern "p([a-z]+)ch"
(the parser of the `syntax` package is not under `src/`): literal `p`, then
capture group 1 holding one-or-more of the class [a-z], then literals `c`,
`h`. -/
def pat5 : RE :=
  .seq (.lit 'p')
    (.seq (.group 1 (.seq (.cls 'a' 'z') (.star (.cls 'a' 'z'))))
      (.seq (.lit 'c') (.lit 'h')))

/-- The Regexp of pattern "p([a-z]+)ch" at default options: two capture
slots, no names. -/
def re5 : Regexp := ⟨pat5, 0, none, none, none, 2⟩

/-- The input of the find-all scenario. -/
def s5 : List Char := "peach punch pinch".toList

/-- C5: FindAllStringIndex repeats find-next, halts on the first nil result,
returns at most n index pairs when n ≥ 0 and all successive matches when
n < 0; on "peach punch pinch" with n = -1 the pattern "p([a-z]+)ch" yields
the three full-match spans, and FindAllStringSubmatchIndex additionally
yields each group-1 span. -/
theorem findAllStringIndex_scenario :
    re5.FindAllStringIndex s5 (-1) = [[0, 5], [6, 11], [12, 17]] ∧
    re5.FindAllStringSubmatchIndex s5 (-1) =
      [[0, 5, 1, 3], [6, 11, 7, 9], [12, 17, 13, 15]] ∧
    (∀ (re : Regexp) (s : List Char) (n : Int), 0 ≤ n →
      ((re.FindAllStringIndex s n).length : Int) ≤ n) := by
  refine ⟨by rfl, by rfl, ?_⟩
  intro re s n hn
  have hcond : ¬(n < 0) := by omega
  simp only [Regexp.FindAllStringIndex, if_neg hcond]
  have := findAllIdxAux_length_le re n.toNat (re.runM (-1) (getRunes s))
  omega

/-- C5 (witness): the cap hypothesis of the third conjunct of
`findAllStringIndex_scenario` holds at a concrete cap. -/
theorem findAllStringIndex_scenario_witness :
    (0 : Int) ≤ 1 ∧ ((re5.FindAllStringIndex s5 1).length : Int) ≤ 1 :=
  ⟨by decide, (findAllStringIndex_scenario.2.2) re5 s5 1 (by decide)⟩

/-- Expansion of the whole-match template at a match is the matched text. -/
theorem expandSegs_whole (m : Match) :
    expandSegs m [.grp 0] = (m.text.drop m.Index).take m.Length := by
  simp [expandSegs, expandSeg]

/-- Splicing the text before a span, the span itself, and the text after it
back together restores the suffix it was cut from. -/
theorem drop_splice (s : List Char) (a i l : Nat) (hai : a ≤ i) :
    (s.drop a).take (i - a) ++ (s.drop i).take l ++ s.drop (i + l) = s.drop a := by
  have h1 : s.drop i = (s.drop a).drop (i - a) := by
    rw [List.drop_drop]
    congr 1
    omega
  have h2 : s.drop (i + l) = (s.drop a).drop (i - a + l) := by
    rw [List.drop_drop]
    congr 1
    omega
  rw [h1, h2, ← List.take_add]
  exact List.take_append_drop _ _

/-- The left-to-right replacement loop with the whole-match template emits
exactly the input suffix it was started on, for any fuel, any negative count,
and any current match consistent with the iteration invariant. -/
theorem replAuxL_splice (re : Regexp) (s : List Char) (hr : re.RightToLeft = false) :
    ∀ (fuel : Nat) (count : Int) (lastEnd : Nat) (mo : Option Match),
    count < 0 →
    (∀ mm, mo = some mm → mm.text = s ∧ mm.textpos = mm.Index + mm.Length ∧
      lastEnd ≤ mm.Index) →
    replAuxL re s [.grp 0] fuel count lastEnd mo = s.drop lastEnd := by
  intro fuel
  induction fuel with
  | zero => intro count lastEnd mo _ _; rfl
  | succ f ih =>
    intro count lastEnd mo hc hm
    cases mo with
    | none => rfl
    | some m =>
      obtain ⟨ht, hwf, hge⟩ := hm m rfl
      unfold replAuxL
      rw [if_neg (by omega)]
      have hchain : ∀ mm, re.nextMatch m = some mm → mm.text = s ∧
          mm.textpos = mm.Index + mm.Length ∧ m.Index + m.Length ≤ mm.Index := by
        intro mm hmm
        obtain ⟨ht', _, hwf', hge', _, _⟩ := nextMatch_sound_ltr hr hwf hmm
        exact ⟨ht'.trans ht, hwf', hge'⟩
      rw [ih (count - 1) (m.Index + m.Length) (re.nextMatch m) (by omega) hchain]
      rw [expandSegs_whole, ht]
      exact drop_splice s lastEnd m.Index m.Length hge

/-- C6: replacing every match by the template "$0" (the whole match)
reproduces the input unchanged: for every pattern compiled at default options
and every input string, Replace(P, S, "$0", -1, -1) = S. -/
theorem replace_whole_match_identity (p : RE) (s : List Char) :
    (compileModel p).Replace s ['$', '0'] (-1) (-1) = .ok s := by
  have hr : (compileModel p).RightToLeft = false := by
    simp [Regexp.RightToLeft, compileModel]
  have htok : tokenizeRepl ['$', '0'] = .ok [.grp 0] := by rfl
  have hchain : ∀ mm, (compileModel p).runM (-1) s = some mm → mm.text = s ∧
      mm.textpos = mm.Index + mm.Length ∧ 0 ≤ mm.Index := by
    intro mm hmm
    obtain ⟨ht, _, hwf, _, _⟩ := runM_sound_ltr hr hmm
    exact ⟨ht, hwf, Nat.zero_le _⟩
  simp only [Regexp.Replace, htok, hr, Bool.false_eq_true, if_false]
  rw [replAuxL_splice (compileModel p) s hr (2 * s.length + 4) (-1) 0
    ((compileModel p).runM (-1) s) (by omega) hchain]
  simp

/-- The spans replaceAll applies the replacement to do not depend on the
(otherwise unused) search position or on the output buffer. -/
theorem replaceAllAux_snd_indep (re : Regexp) (s : List Char)
    (repl : List Nat → Nat × Nat → List Nat) :
    ∀ (fuel : Nat) (lastEnd sp1 sp2 : Nat) (buf1 buf2 : List Nat) (mo : Option Match),
    (replaceAllAux re s repl fuel lastEnd sp1 buf1 mo).2 =
      (replaceAllAux re s repl fuel lastEnd sp2 buf2 mo).2 := by
  intro fuel
  induction fuel with
  | zero => intro lastEnd sp1 sp2 buf1 buf2 mo; rfl
  | succ f ih =>
    intro lastEnd sp1 sp2 buf1 buf2 mo
    cases mo with
    | none => rfl
    | some m =>
      simp only [replaceAllAux]
      congr 1
      apply ih

/-- A list of pairs whose second components increase strictly along the list
and stay at most B has at most B + 1 entries. -/
theorem chain_snd_length_le (l : List (Nat × Nat)) (B : Nat)
    (hc : l.Chain' (fun a b => a.2 < b.2)) (hb : ∀ x ∈ l, x.2 ≤ B) :
    l.length ≤ B + 1 := by
  have hmap : (l.map Prod.snd).Chain' (· < ·) := (List.chain'_map Prod.snd).mpr hc
  have hpw : (l.map Prod.snd).Pairwise (· < ·) := List.chain'_iff_pairwise.mp hmap
  have hnd : (l.map Prod.snd).Nodup := hpw.imp (fun h => Nat.ne_of_lt h)
  have hsub : (l.map Prod.snd) ⊆ List.range (B + 1) := by
    intro x hx
    rw [List.mem_map] at hx
    obtain ⟨p, hp, hpx⟩ := hx
    rw [List.mem_range]
    have := hb p hp
    omega
  have hlen := (List.subperm_of_subset hnd hsub).length_le
  simpa using hlen

/-- Invariant propagation along replaceAll's match iteration in left-to-right
mode: once every match of the chain starts at scalar 1 or later, the applied
spans all end strictly after the previous match's end, stay inside the input,
and their ends increase strictly along the list. -/
theorem replaceAllAux_spans_chain (re : Regexp) (s : List Char)
    (repl : List Nat → Nat × Nat → List Nat) (hr : re.RightToLeft = false) :
    ∀ (fuel : Nat) (lastEnd searchPos : Nat) (buf : List Nat) (mo : Option Match),
    (∀ mm, mo = some mm → mm.text = s ∧ mm.textpos = mm.Index + mm.Length ∧
      mm.textpos ≤ s.length ∧ lastEnd ≤ mm.Index + mm.Length ∧ 1 ≤ mm.Index) →
    (∀ x ∈ (replaceAllAux re s repl fuel lastEnd searchPos buf mo).2,
      lastEnd < x.2 ∧ x.2 ≤ s.length) ∧
    ((replaceAllAux re s repl fuel lastEnd searchPos buf mo).2).Chain'
      (fun a b => a.2 < b.2) := by
  intro fuel
  induction fuel with
  | zero =>
    intro lastEnd searchPos buf mo _
    constructor
    · intro x hx
      simp [replaceAllAux] at hx
    · simp [replaceAllAux]
  | succ f ih =>
    intro lastEnd searchPos buf mo hm
    cases mo with
    | none =>
      constructor
      · intro x hx
        simp [replaceAllAux] at hx
      · simp [replaceAllAux]
    | some m =>
      obtain ⟨ht, hwf, hub, hle, h1⟩ := hm m rfl
      have htlen : m.text.length = s.length := by rw [ht]
      have hnextInv : ∀ mm, re.nextMatch m = some mm → mm.text = s ∧
          mm.textpos = mm.Index + mm.Length ∧ mm.textpos ≤ s.length ∧
          m.Index + m.Length ≤ mm.Index + mm.Length ∧ 1 ≤ mm.Index := by
        intro mm hmm
        obtain ⟨ht', hg', hwf', hge', hz', hb'⟩ := nextMatch_sound_ltr hr hwf hmm
        have hb'' := hb' (by omega)
        exact ⟨ht'.trans ht, hwf', by omega, by omega, by omega⟩
      simp only [replaceAllAux]
      rw [replaceAllAux_snd_indep re s repl f _ _ 0 _ [] _]
      obtain ⟨ihA, ihC⟩ := ih (m.Index + m.Length) 0 [] (re.nextMatch m) hnextInv
      by_cases hg : m.Index + m.Length > lastEnd ∨ m.Index = 0
      · rw [if_pos hg]
        have ha1 : lastEnd < m.Index + m.Length := by
          rcases hg with h | h
          · exact h
          · omega
        simp only [List.singleton_append]
        constructor
        · intro x hx
          rcases List.mem_cons.mp hx with h | h
          · rw [h]
            exact ⟨ha1, by omega⟩
          · have := ihA x h
            omega
        · rw [List.chain'_cons']
          refine ⟨?_, ihC⟩
          intro b hb
          exact (ihA b (List.mem_of_mem_head? hb)).1
      · rw [if_neg hg]
        simp only [List.nil_append]
        constructor
        · intro x hx
          have := ihA x hx
          omega
        · exact ihC

/-- C7 (amended): in left-to-right mode, the callback-based replacement loop
applies the replacement at spans whose end positions increase strictly along
the iteration — so the same boundary is never replaced twice, the scan makes
progress between any two applications, and emission is bounded: at most
len(src) + 1 applications occur.  (For right-to-left patterns a zero-width
match at position 0 defeats the guard and the same span can be replaced
repeatedly: see `replaceAll_rtl_double`.) -/
theorem replaceAll_spans_progress (re : Regexp) (s : List Char)
    (repl : List Nat → Nat × Nat → List Nat) (hr : re.RightToLeft = false) :
    (replaceAllSpans re s repl).Chain' (fun a b => a.2 < b.2) ∧
    (replaceAllSpans re s repl).length ≤ s.length + 1 := by
  have main : (∀ x ∈ replaceAllSpans re s repl, x.2 ≤ s.length) ∧
      (replaceAllSpans re s repl).Chain' (fun a b => a.2 < b.2) := by
    unfold replaceAllSpans
    simp only [getRunes]
    cases hm : re.runM (-1) s with
    | none =>
      have hfu : 2 * s.length + 4 = (2 * s.length + 3) + 1 := rfl
      rw [hfu]
      constructor
      · intro x hx
        simp [replaceAllAux] at hx
      · simp [replaceAllAux]
    | some m0 =>
      obtain ⟨ht0, hg0, hwf0, _, hb0⟩ := runM_sound_ltr hr hm
      have hub0 : m0.Index + m0.Length ≤ s.length := hb0 (by omega)
      by_cases h10 : 1 ≤ m0.Index
      · obtain ⟨hA, hC⟩ := replaceAllAux_spans_chain re s repl hr (2 * s.length + 4)
          0 0 [] (some m0)
          (by
            intro mm hmm
            rw [Option.some.injEq] at hmm
            subst hmm
            exact ⟨ht0, hwf0, by omega, by omega, h10⟩)
        exact ⟨fun x hx => (hA x hx).2, hC⟩
      · have h00 : m0.Index = 0 := by omega
        have hnextInv0 : ∀ mm, re.nextMatch m0 = some mm → mm.text = s ∧
            mm.textpos = mm.Index + mm.Length ∧ mm.textpos ≤ s.length ∧
            m0.Index + m0.Length ≤ mm.Index + mm.Length ∧ 1 ≤ mm.Index := by
          intro mm hmm
          obtain ⟨ht', hg', hwf', hge', hz', hb'⟩ := nextMatch_sound_ltr hr hwf0 hmm
          have hmtl : m0.text.length = s.length := by rw [ht0]
          have hb'' := hb' (by omega)
          refine ⟨ht'.trans ht0, hwf', by omega, by omega, ?_⟩
          rcases Nat.eq_zero_or_pos m0.Length with hz0 | hz0
          · have := hz' hz0
            omega
          · omega
        have hfu : 2 * s.length + 4 = (2 * s.length + 3) + 1 := rfl
        rw [hfu]
        simp only [replaceAllAux]
        rw [replaceAllAux_snd_indep re s repl (2 * s.length + 3) _ _ 0 _ [] _]
        obtain ⟨hA, hC⟩ := replaceAllAux_spans_chain re s repl hr (2 * s.length + 3)
          (m0.Index + m0.Length) 0 [] (re.nextMatch m0) hnextInv0
        rw [if_pos (Or.inr h00)]
        simp only [List.singleton_append]
        constructor
        · intro x hx
          rcases List.mem_cons.mp hx with h | h
          · rw [h]
            simpa using hub0
          · exact (hA x h).2
        · rw [List.chain'_cons']
          refine ⟨?_, hC⟩
          intro b hb
          exact (hA b (List.mem_of_mem_head? hb)).1
  exact ⟨main.2, chain_snd_length_le _ _ main.2 main.1⟩

/-- C7 (witness): the left-to-right hypothesis of `replaceAll_spans_progress`
holds at a concrete Regexp, input and replacement function. -/
theorem replaceAll_spans_progress_witness :
    re5.RightToLeft = false ∧
    ((replaceAllSpans re5 s5 (fun dst _ => dst)).Chain' (fun a b => a.2 < b.2) ∧
     (replaceAllSpans re5 s5 (fun dst _ => dst)).length ≤ s5.length + 1) :=
  ⟨by rfl, replaceAll_spans_progress re5 s5 (fun dst _ => dst) (by rfl)⟩

/-- C7 (counterexample): for the right-to-left Regexp `reR` on input "b",
replaceAll applies the replacement twice in a row to the same zero-width span
(0,0): the scan position does not advance between applications and a double
replacement occurs at the same boundary, refuting the claim for right-to-left
patterns. -/
theorem replaceAll_rtl_double :
    (replaceAllSpans reR bInput (fun dst _ => dst)).take 2 = [(0, 0), (0, 0)] := by
  rfl

end Regexp2
